import Mathlib

set_option maxRecDepth 100000

/-!
Verification of the affine cipher implementation (affine_cipher.h) against its
specification.  The cipher works over the 97-character table `ch_table`,
mapping each character to a residue modulo 97, applying `y = m*x + b`, and
mapping back.  Strings are embedded as `List Char`, the throwing functions
`encrypt`/`decrypt` as `Except`-valued functions.
-/

namespace AffineCipher

/-- Modelled from the spec: the modular-integer type comes from
`math_nerd/int_mod.h` (a separate header, not part of this repository's
sources).  The spec describes it as an integer constrained to `[0, N)`,
normalized on construction and after every operation; we embed it as
`ZMod 97`. -/
abbrev z97 := ZMod 97

/-- An affine key: `std::pair<z97, z97>`, slope first, intercept second. -/
abbrev affine_key := z97 × z97

instance : NeZero (97 : ℕ) := ⟨by norm_num⟩

/-- The character table from `impl_details::ch_table`.  Characters that would
collide with the lexical structure of this file are written with
`Char.ofNat`: 39 is the single quote, 34 the double quote, 96 the backtick,
92 the backslash, 9 the tab and 10 the newline. -/
def ch_table : List Char :=
  ['A', 'B', 'C', 'D', 'E', 'F', 'G', 'H', 'I', 'J', 'K', 'L', 'M',
   'N', 'O', 'P', 'Q', 'R', 'S', 'T', 'U', 'V', 'W', 'X', 'Y', 'Z',
   'a', 'b', 'c', 'd', 'e', 'f', 'g', 'h', 'i', 'j', 'k', 'l', 'm',
   'n', 'o', 'p', 'q', 'r', 's', 't', 'u', 'v', 'w', 'x', 'y', 'z',
   '0', '1', '2', '3', '4', '5', '6', '7', '8', '9',
   ' ', '~', '-', '=', '!', '@', '#', '$', '%', '^', '&', '*', '(', ')',
   '_', '+', '[', ']', ';', Char.ofNat 39, ',', '.', '/', '{', '}', ':',
   Char.ofNat 34, '<', '>', '?', Char.ofNat 96, Char.ofNat 92, '|',
   Char.ofNat 9, Char.ofNat 10]

/-- `impl_details::z97_to_char`: `ch_table[num.value()]`.  The index
`num.val` is always below 97 = `ch_table.length`, so the default is never
used. -/
def z97_to_char (num : z97) : Char :=
  ch_table.getD num.val 'A'

/-- `impl_details::char_to_z97`:
`std::distance(begin, std::find(begin, end, c))`, implicitly converted to
`z97`.  `List.findIdx` returns the index of the first occurrence, and the
length 97 when `c` is absent — exactly the `std::distance`/`std::find`
semantics; the conversion to `z97` then normalizes 97 to 0. -/
def char_to_z97 (c : Char) : z97 :=
  ((ch_table.findIdx (fun a => a == c) : ℕ) : z97)

/-- `impl_details::valid_affine_key`: the multiplicative part is nonzero. -/
def valid_affine_key (key : affine_key) : Bool :=
  decide (key.1 ≠ 0)

/-- `make_key`, with the two draws of the random source made explicit
arguments: the source draws `m` from `[1, 96]` and `b` from `[0, 96]` as C++
`int`s, which convert to `z97`. -/
def make_key (m_draw b_draw : ℤ) : affine_key :=
  ((m_draw : z97), (b_draw : z97))

/-- Modelled from the spec: `z97::inverse()` lives in the missing
`math_nerd/int_mod.h`.  The spec allows modular exponentiation
`a^(N-2) mod N` (Fermat) as the implementation, value-equivalent to the
extended Euclidean algorithm. -/
def z97_inverse (a : z97) : z97 :=
  a ^ 95

/-- The errors thrown by the implementation (`std::invalid_argument` for an
invalid key); there is no unknown-character error in the code. -/
inductive CipherError where
  | invalidKey : CipherError
deriving DecidableEq

/-- `encrypt`: throws on an invalid key, otherwise maps each plaintext
character `ch` to `z97_to_char (m * char_to_z97 ch + b)`. -/
def encrypt (key : affine_key) (pt : List Char) : Except CipherError (List Char) :=
  if !valid_affine_key key then
    Except.error CipherError.invalidKey
  else
    let m := key.1
    let b := key.2
    Except.ok (pt.map (fun ch => z97_to_char (m * char_to_z97 ch + b)))

/-- `decrypt`: throws on an invalid key, otherwise maps each ciphertext
character `ch` to `z97_to_char (m_inv * (y + b_inv))` where
`m_inv = key.first.inverse()` and `b_inv = -key.second`. -/
def decrypt (key : affine_key) (ct : List Char) : Except CipherError (List Char) :=
  if !valid_affine_key key then
    Except.error CipherError.invalidKey
  else
    let m_inv := z97_inverse key.1
    let b_inv := -key.2
    Except.ok (ct.map (fun ch => z97_to_char (m_inv * (char_to_z97 ch + b_inv))))

/-- The alphabet table as the spec's section 6 literal sequence prescribes
it: A-Z, a-z, 0-9, space, then the symbol run
`~ - = ! @ # $ % ^ & * ( ) _ + [ ] ; quote , . / brace brace : dquote < > ?
backtick backslash |`, then tab and newline.  Written independently of
`ch_table`, to be compared with it. -/
def spec_table : List Char :=
  ((List.range 26).map (fun i => Char.ofNat (65 + i))) ++
  ((List.range 26).map (fun i => Char.ofNat (97 + i))) ++
  ((List.range 10).map (fun i => Char.ofNat (48 + i))) ++
  [' ', '~', '-', '=', '!', '@', '#', '$', '%', '^', '&', '*', '(', ')',
   '_', '+', '[', ']', ';', Char.ofNat 39, ',', '.', '/', '{', '}', ':',
   Char.ofNat 34, '<', '>', '?', Char.ofNat 96, Char.ofNat 92, '|',
   Char.ofNat 9, Char.ofNat 10]

theorem table_residue_roundtrip : ∀ r : z97, char_to_z97 (z97_to_char r) = r := by
  decide

theorem table_mem_roundtrip : ∀ c ∈ ch_table, z97_to_char (char_to_z97 c) = c := by
  decide

theorem z97_inverse_mul : ∀ a : z97, a ≠ 0 → z97_inverse a * a = 1 := by
  decide

theorem char_to_z97_of_not_mem {c : Char} (h : c ∉ ch_table) : char_to_z97 c = 0 := by
  unfold char_to_z97
  have hlen : ch_table.findIdx (fun a => a == c) = ch_table.length := by
    apply List.findIdx_eq_length_of_false
    intro x hx
    simp only [beq_eq_false_iff_ne]
    exact fun hxc => h (hxc ▸ hx)
  rw [hlen]
  decide

theorem encrypt_eq_ok (k : affine_key) (hk : k.1 ≠ 0) (s : List Char) :
    encrypt k s =
      Except.ok (s.map (fun ch => z97_to_char (k.1 * char_to_z97 ch + k.2))) := by
  simp [encrypt, valid_affine_key, hk]

theorem decrypt_eq_ok (k : affine_key) (hk : k.1 ≠ 0) (s : List Char) :
    decrypt k s =
      Except.ok (s.map (fun ch => z97_to_char (z97_inverse k.1 * (char_to_z97 ch + -k.2)))) := by
  simp [decrypt, valid_affine_key, hk]

theorem dec_enc_char (k : affine_key) (hk : k.1 ≠ 0) (c : Char) (hc : c ∈ ch_table) :
    z97_to_char (z97_inverse k.1 *
      (char_to_z97 (z97_to_char (k.1 * char_to_z97 c + k.2)) + -k.2)) = c := by
  rw [table_residue_roundtrip]
  have h1 : k.1 * char_to_z97 c + k.2 + -k.2 = k.1 * char_to_z97 c := by ring
  rw [h1, ← mul_assoc, z97_inverse_mul k.1 hk, one_mul]
  exact table_mem_roundtrip c hc

/-- Claim C1: for every valid key `k` (slope nonzero modulo 97) and every
string `s` all of whose characters are in the 97-character table,
`decrypt k (encrypt k s)` succeeds and returns `s`. -/
theorem c1_round_trip (k : affine_key) (hk : k.1 ≠ 0) (s : List Char)
    (hs : ∀ c ∈ s, c ∈ ch_table) :
    (encrypt k s).bind (fun ct => decrypt k ct) = Except.ok s := by
  rw [encrypt_eq_ok k hk s]
  show decrypt k _ = _
  rw [decrypt_eq_ok k hk, List.map_map]
  have : s.map (fun c => z97_to_char (z97_inverse k.1 *
      (char_to_z97 (z97_to_char (k.1 * char_to_z97 c + k.2)) + -k.2))) = s.map id := by
    apply List.map_congr_left
    intro c hc
    exact dec_enc_char k hk c (hs c hc)
  rw [Function.comp_def, this, List.map_id]

/-- Witness for C1 at the key (7, 2) and the plaintext list of the two
characters H and i. -/
theorem c1_round_trip_witness :
    ((7 : z97), (2 : z97)).1 ≠ 0 ∧ (∀ c ∈ ['H', 'i'], c ∈ ch_table) ∧
    (encrypt ((7 : z97), (2 : z97)) ['H', 'i']).bind
      (fun ct => decrypt ((7 : z97), (2 : z97)) ct) = Except.ok ['H', 'i'] :=
  ⟨by decide, by decide,
    c1_round_trip ((7 : z97), (2 : z97)) (by decide) ['H', 'i'] (by decide)⟩

/-- Counterexample to claim C2: the accented letter e (code point 233) is
not in the table, the key (1, 0) is valid, yet `encrypt` does not fail: it
returns the one-character output A, and `decrypt` likewise succeeds.  The
code has no unknown-character error at all: `char_to_z97` yields the residue
97 mod 97 = 0 for an absent character. -/
theorem c2_unknown_char_counterexample :
    (Char.ofNat 233) ∉ ch_table ∧
    ((1 : z97), (0 : z97)).1 ≠ 0 ∧
    encrypt ((1 : z97), (0 : z97)) [Char.ofNat 233] = Except.ok ['A'] ∧
    decrypt ((1 : z97), (0 : z97)) [Char.ofNat 233] = Except.ok ['A'] :=
  ⟨by decide, by decide, rfl, rfl⟩

/-- Claim C2 as amended: for every valid key and every string, even one
containing characters outside the 97-character table, `encrypt` and
`decrypt` succeed, behaving exactly as they would if every out-of-table
character were replaced by A. -/
theorem c2_unknown_char_amended (k : affine_key) (hk : k.1 ≠ 0) (s : List Char) :
    (∃ ct, encrypt k s = Except.ok ct) ∧
    (∃ pt, decrypt k s = Except.ok pt) ∧
    encrypt k s = encrypt k (s.map (fun c => if c ∈ ch_table then c else 'A')) ∧
    decrypt k s = decrypt k (s.map (fun c => if c ∈ ch_table then c else 'A')) := by
  have hA : ∀ c : Char, char_to_z97 (if c ∈ ch_table then c else 'A') = char_to_z97 c := by
    intro c
    by_cases hc : c ∈ ch_table
    · rw [if_pos hc]
    · rw [if_neg hc, char_to_z97_of_not_mem hc]
      decide
  refine ⟨⟨_, encrypt_eq_ok k hk s⟩, ⟨_, decrypt_eq_ok k hk s⟩, ?_, ?_⟩
  · rw [encrypt_eq_ok k hk, encrypt_eq_ok k hk, List.map_map]
    refine congrArg Except.ok (List.map_congr_left ?_)
    intro c _
    simp only [Function.comp_apply, hA]
  · rw [decrypt_eq_ok k hk, decrypt_eq_ok k hk, List.map_map]
    refine congrArg Except.ok (List.map_congr_left ?_)
    intro c _
    simp only [Function.comp_apply, hA]

/-- Witness for the amended C2 at the key (7, 2) and a string containing the
out-of-table character with code point 233. -/
theorem c2_unknown_char_amended_witness :
    ((7 : z97), (2 : z97)).1 ≠ 0 ∧
    ((∃ ct, encrypt ((7 : z97), (2 : z97)) [Char.ofNat 233, 'B'] = Except.ok ct) ∧
     (∃ pt, decrypt ((7 : z97), (2 : z97)) [Char.ofNat 233, 'B'] = Except.ok pt) ∧
     encrypt ((7 : z97), (2 : z97)) [Char.ofNat 233, 'B'] =
       encrypt ((7 : z97), (2 : z97))
         ([Char.ofNat 233, 'B'].map (fun c => if c ∈ ch_table then c else 'A')) ∧
     decrypt ((7 : z97), (2 : z97)) [Char.ofNat 233, 'B'] =
       decrypt ((7 : z97), (2 : z97))
         ([Char.ofNat 233, 'B'].map (fun c => if c ∈ ch_table then c else 'A'))) :=
  ⟨by decide, c2_unknown_char_amended ((7 : z97), (2 : z97)) (by decide) [Char.ofNat 233, 'B']⟩

/-- Claim C3: `encrypt` and `decrypt` throw the invalid-key error exactly
when the slope is 0 modulo 97, and succeed exactly when it is nonzero. -/
theorem c3_invalid_key_iff (k : affine_key) (s : List Char) :
    (encrypt k s = Except.error CipherError.invalidKey ↔ k.1 = 0) ∧
    (decrypt k s = Except.error CipherError.invalidKey ↔ k.1 = 0) ∧
    ((∃ ct, encrypt k s = Except.ok ct) ↔ k.1 ≠ 0) ∧
    ((∃ pt, decrypt k s = Except.ok pt) ↔ k.1 ≠ 0) := by
  by_cases h : k.1 = 0 <;>
    simp [encrypt, decrypt, valid_affine_key, h]

/-- Claim C4: for a valid key and a string of alphabet characters, `encrypt`
succeeds, preserves length, and sends the character at each position `i`,
independently of the other positions, to
`z97_to_char (slope * char_to_z97 c + intercept)`. -/
theorem c4_encrypt_pointwise (k : affine_key) (hk : k.1 ≠ 0) (s : List Char)
    (hs : ∀ c ∈ s, c ∈ ch_table) :
    ∃ ct, encrypt k s = Except.ok ct ∧ ct.length = s.length ∧
      ∀ i, i < s.length →
        ct.getD i 'A' = z97_to_char (k.1 * char_to_z97 (s.getD i 'A') + k.2) := by
  refine ⟨_, encrypt_eq_ok k hk s, by simp, ?_⟩
  intro i hi
  rw [List.getD_eq_getElem _ _ (by simpa using hi), List.getD_eq_getElem _ _ hi,
    List.getElem_map]

/-- Witness for C4 at the key (7, 2) and the plaintext list of characters
A and B. -/
theorem c4_encrypt_pointwise_witness :
    ((7 : z97), (2 : z97)).1 ≠ 0 ∧
    (∃ ct, encrypt ((7 : z97), (2 : z97)) ['A', 'B'] = Except.ok ct ∧
      ct.length = (['A', 'B'] : List Char).length ∧
      ∀ i, i < (['A', 'B'] : List Char).length →
        ct.getD i 'A' = z97_to_char ((7 : z97) * char_to_z97 ((['A', 'B'] : List Char).getD i 'A') + 2)) :=
  ⟨by decide, c4_encrypt_pointwise ((7 : z97), (2 : z97)) (by decide) ['A', 'B'] (by decide)⟩

/-- Claim C5: for a valid key and a string of alphabet characters, `decrypt`
succeeds and sends the character at each position `i`, independently of the
other positions, to `z97_to_char (m_inv * (char_to_z97 c + b_neg))`, where
`m_inv` is a multiplicative inverse of the slope and `b_neg` an additive
negation of the intercept modulo 97. -/
theorem c5_decrypt_pointwise (k : affine_key) (hk : k.1 ≠ 0) (s : List Char)
    (hs : ∀ c ∈ s, c ∈ ch_table) :
    z97_inverse k.1 * k.1 = 1 ∧ (-k.2) + k.2 = 0 ∧
    ∃ pt, decrypt k s = Except.ok pt ∧ pt.length = s.length ∧
      ∀ i, i < s.length →
        pt.getD i 'A' = z97_to_char (z97_inverse k.1 * (char_to_z97 (s.getD i 'A') + -k.2)) := by
  refine ⟨z97_inverse_mul k.1 hk, by ring, _, decrypt_eq_ok k hk s, by simp, ?_⟩
  intro i hi
  rw [List.getD_eq_getElem _ _ (by simpa using hi), List.getD_eq_getElem _ _ hi,
    List.getElem_map]

/-- Witness for C5 at the key (7, 2) and the ciphertext list of characters
A and B. -/
theorem c5_decrypt_pointwise_witness :
    ((7 : z97), (2 : z97)).1 ≠ 0 ∧
    (z97_inverse (7 : z97) * (7 : z97) = 1 ∧ (-(2 : z97)) + (2 : z97) = 0 ∧
     ∃ pt, decrypt ((7 : z97), (2 : z97)) ['A', 'B'] = Except.ok pt ∧
       pt.length = (['A', 'B'] : List Char).length ∧
       ∀ i, i < (['A', 'B'] : List Char).length →
         pt.getD i 'A' =
           z97_to_char (z97_inverse (7 : z97) * (char_to_z97 ((['A', 'B'] : List Char).getD i 'A') + -(2 : z97)))) :=
  ⟨by decide, c5_decrypt_pointwise ((7 : z97), (2 : z97)) (by decide) ['A', 'B'] (by decide)⟩

/-- Claim C6: the table is exactly the spec's 97-character sequence, in that
order, its entries are distinct, and `char_to_z97` / `z97_to_char` form the
corresponding bijection between table characters and residues modulo 97. -/
theorem c6_alphabet_table :
    spec_table = ch_table ∧ ch_table.length = 97 ∧ ch_table.Nodup ∧
    (∀ r : z97, char_to_z97 (z97_to_char r) = r) ∧
    (∀ c ∈ ch_table, z97_to_char (char_to_z97 c) = c) := by
  decide

/-- Claim C7: with the key (7, 2), the 14-character plaintext
`Hello, world!` followed by a newline encrypts to a 14-character ciphertext
(concretely the one shown in the README), and decrypting that ciphertext
with the same key gives back the plaintext exactly. -/
theorem c7_hello_example :
    encrypt ((7 : z97), (2 : z97))
        ['H', 'e', 'l', 'l', 'o', ',', ' ', 'w', 'o', 'r', 'l', 'd', '!', Char.ofNat 10] =
      Except.ok
        ['z', 'S', '@', '@', Char.ofNat 34, '?', 'w', 'v', Char.ofNat 34, 'M', '@', 'L',
         '_', Char.ofNat 96] ∧
    (['z', 'S', '@', '@', Char.ofNat 34, '?', 'w', 'v', Char.ofNat 34, 'M', '@', 'L',
      '_', Char.ofNat 96] : List Char).length = 14 ∧
    decrypt ((7 : z97), (2 : z97))
        ['z', 'S', '@', '@', Char.ofNat 34, '?', 'w', 'v', Char.ofNat 34, 'M', '@', 'L',
         '_', Char.ofNat 96] =
      Except.ok
        ['H', 'e', 'l', 'l', 'o', ',', ' ', 'w', 'o', 'r', 'l', 'd', '!', Char.ofNat 10] :=
  ⟨rfl, rfl, rfl⟩

/-- Claim C8: whenever the random source draws the slope from [1, 96] and
the intercept from [0, 96], the key built by `make_key` is valid: its slope
is nonzero modulo 97. -/
theorem c8_make_key_valid (m b : ℤ) (hm1 : 1 ≤ m) (hm2 : m ≤ 96)
    (hb1 : 0 ≤ b) (hb2 : b ≤ 96) :
    valid_affine_key (make_key m b) = true := by
  have hne : ((m : ℤ) : z97) ≠ 0 := by
    rw [Ne, ZMod.intCast_zmod_eq_zero_iff_dvd]
    intro hdvd
    have hle : (97 : ℤ) ≤ m := Int.le_of_dvd (by linarith) hdvd
    linarith
  simp [valid_affine_key, make_key, hne]

/-- Witness for C8 at the draws 7 and 2. -/
theorem c8_make_key_valid_witness :
    1 ≤ (7 : ℤ) ∧ (7 : ℤ) ≤ 96 ∧ 0 ≤ (2 : ℤ) ∧ (2 : ℤ) ≤ 96 ∧
    valid_affine_key (make_key 7 2) = true :=
  ⟨by decide, by decide, by decide, by decide,
    c8_make_key_valid 7 2 (by decide) (by decide) (by decide) (by decide)⟩

/-- Claim C9: for every valid key, `encrypt` and `decrypt` both succeed and
produce an output of the same length as their input. -/
theorem c9_length_preservation (k : affine_key) (hk : k.1 ≠ 0) (s : List Char) :
    (∃ ct, encrypt k s = Except.ok ct ∧ ct.length = s.length) ∧
    (∃ pt, decrypt k s = Except.ok pt ∧ pt.length = s.length) :=
  ⟨⟨_, encrypt_eq_ok k hk s, by simp⟩, ⟨_, decrypt_eq_ok k hk s, by simp⟩⟩

/-- Witness for C9 at the key (7, 2) and a three-character string. -/
theorem c9_length_preservation_witness :
    ((7 : z97), (2 : z97)).1 ≠ 0 ∧
    ((∃ ct, encrypt ((7 : z97), (2 : z97)) ['a', 'b', 'c'] = Except.ok ct ∧
        ct.length = (['a', 'b', 'c'] : List Char).length) ∧
     (∃ pt, decrypt ((7 : z97), (2 : z97)) ['a', 'b', 'c'] = Except.ok pt ∧
        pt.length = (['a', 'b', 'c'] : List Char).length)) :=
  ⟨by decide, c9_length_preservation ((7 : z97), (2 : z97)) (by decide) ['a', 'b', 'c']⟩

/-- Claim C10: a character outside the table gets residue 97 mod 97 = 0, the
same residue as A; consequently, with any valid key, `encrypt` and `decrypt`
do not fail on input containing it and transform it exactly as they would
transform A. -/
theorem c10_unknown_as_A (c : Char) (hc : c ∉ ch_table) (k : affine_key)
    (hk : k.1 ≠ 0) (s : List Char) :
    char_to_z97 c = 0 ∧ char_to_z97 c = char_to_z97 'A' ∧
    (∃ ct, encrypt k (c :: s) = Except.ok ct) ∧
    encrypt k (c :: s) = encrypt k ('A' :: s) ∧
    decrypt k (c :: s) = decrypt k ('A' :: s) := by
  have h0 : char_to_z97 c = 0 := char_to_z97_of_not_mem hc
  have hA : char_to_z97 'A' = 0 := by decide
  refine ⟨h0, by rw [h0, hA], ⟨_, encrypt_eq_ok k hk _⟩, ?_, ?_⟩
  · rw [encrypt_eq_ok k hk, encrypt_eq_ok k hk]
    simp [h0, hA]
  · rw [decrypt_eq_ok k hk, decrypt_eq_ok k hk]
    simp [h0, hA]

/-- Witness for C10 at the out-of-table character with code point 233, the
key (7, 2) and a one-character tail. -/
theorem c10_unknown_as_A_witness :
    (Char.ofNat 233) ∉ ch_table ∧ ((7 : z97), (2 : z97)).1 ≠ 0 ∧
    (char_to_z97 (Char.ofNat 233) = 0 ∧
     char_to_z97 (Char.ofNat 233) = char_to_z97 'A' ∧
     (∃ ct, encrypt ((7 : z97), (2 : z97)) (Char.ofNat 233 :: ['B']) = Except.ok ct) ∧
     encrypt ((7 : z97), (2 : z97)) (Char.ofNat 233 :: ['B']) =
       encrypt ((7 : z97), (2 : z97)) ('A' :: ['B']) ∧
     decrypt ((7 : z97), (2 : z97)) (Char.ofNat 233 :: ['B']) =
       decrypt ((7 : z97), (2 : z97)) ('A' :: ['B'])) :=
  ⟨by decide, by decide,
    c10_unknown_as_A (Char.ofNat 233) (by decide) ((7 : z97), (2 : z97)) (by decide) ['B']⟩

end AffineCipher
